import Mathlib

/-!
# The onion poller (src/onion/poller.c)

A shallow embedding of the epoll based poller of the onion HTTP library and
the properties of its registration table and dispatch loop.

Modelling conventions.

* The singly linked list hanging off `poller->head` is a Lean list of
  elements, head first; `next == NULL` is the end of the list.
* A function pointer and a `void*` context are addresses (`Nat`); what the
  code behind a function pointer does is given by a `Callbacks` table.
* The C `int` fields are integers; `n` counts heap allocated elements and is
  never read by a branch, no wrap-around is modelled.
* The results of the native calls (`epoll_create`, `epoll_ctl`, `epoll_wait`)
  are inputs of the operations.
* Dereferencing a null pointer is the result `none`.
* `malloc` is taken to succeed, and `free` has no effect on the list model.
* `Machine.calls` is a record kept beside the program: the dispatch loop appends the
  element whose callback it calls, so that "which callback ran, with which context"
  can be stated.
-/

namespace Onion

/-- Each element of the poll: `struct onion_poller_el_t` without its `next` link. -/
structure onion_poller_el where
  fd : Int
  f : Nat
  data : Nat
deriving DecidableEq, Repr

/-- The poller: `struct onion_poller_t`; `head` is the linked list of elements. -/
structure onion_poller where
  fd : Int
  stop : Int
  n : Int
  head : List onion_poller_el
deriving DecidableEq, Repr

/-- Constructor `onion_poller_new`: `epfd` is what `epoll_create(n)` returned; a
negative value is the failure path, which returns `NULL`. -/
def onion_poller_new (epfd : Int) : Option onion_poller :=
  if epfd < 0 then none
  else some { fd := epfd, stop := 0, head := [], n := 0 }

/-- Destructor `onion_poller_free`: only logs a warning, the poller is left as it is. -/
def onion_poller_free (p : onion_poller) : onion_poller := p

/-- The tail walk of `onion_poller_add` (lines 97-104): with an empty list the new
element becomes the head, otherwise the list is walked to the element whose `next`
is null and the new element is linked there. -/
def link_tail (nel : onion_poller_el) : List onion_poller_el → List onion_poller_el
  | [] => [nel]
  | el :: rest => el :: link_tail nel rest

/-- Registration `onion_poller_add`: `rc` is what `epoll_ctl(poller->fd, EPOLL_CTL_ADD, fd, &ev)`
returned. The result is the returned `int` and the poller afterwards. -/
def onion_poller_add (poller : onion_poller) (fd : Int) (f : Nat) (data : Nat) (rc : Int) :
    Int × onion_poller :=
  if rc < 0 then (1, poller)
  else
    (0, { poller with
            head := link_tail { fd := fd, f := f, data := data } poller.head,
            n := poller.n + 1 })

/-- The `while (el->next)` loop of `onion_poller_remove` (lines 125-135), run on the
successors of the current element: the first successor whose descriptor is `fd` is
unlinked. The result is the new list of successors and whether one was unlinked. -/
def unlink_next (fd : Int) : List onion_poller_el → List onion_poller_el × Bool
  | [] => ([], false)
  | t :: rest =>
    if t.fd = fd then (rest, true)
    else ((t :: (unlink_next fd rest).1), (unlink_next fd rest).2)

/-- Unregistration `onion_poller_remove`. With an empty list `el` is null, the guarded test
of line 118 is false and `while (el->next)` dereferences the null pointer: `none`. -/
def onion_poller_remove (poller : onion_poller) (fd : Int) : Option (Int × onion_poller) :=
  match poller.head with
  | [] => none
  | el :: rest =>
    if el.fd = fd then
      some (0, { poller with head := rest, n := poller.n - 1 })
    else
      match unlink_next fd rest with
      | (rest2, true) => some (0, { poller with head := el :: rest2, n := poller.n - 1 })
      | (_, false) => some (0, poller)

/-- Stop request `onion_poller_stop`. -/
def onion_poller_stop (p : onion_poller) : onion_poller := { p with stop := 1 }

/-- The code behind the function pointers: `cb f data p u` is what calling `f(data)` does to
the poller `p` and to the rest of the program state `u`; `none` when the call does not
return (it faults). -/
abbrev Callbacks (σ : Type) := Nat → Nat → onion_poller → σ → Option (onion_poller × σ)

/-- The running program: the poller, the rest of the program state, and the record of the
callback invocations made by the dispatch loop so far, oldest first. -/
structure Machine (σ : Type) where
  poller : onion_poller
  user : σ
  calls : List onion_poller_el

/-- The lookup of lines 158-160: the first element whose descriptor is `efd`, or null. -/
def lookup (efd : Int) : List onion_poller_el → Option onion_poller_el
  | [] => none
  | el :: rest => if el.fd ≠ efd then lookup efd rest else some el

/-- The call of line 167, `el->f(el->data)`. -/
def invoke {σ : Type} (cb : Callbacks σ) (m : Machine σ) (el : onion_poller_el) :
    Option (Machine σ) :=
  match cb el.f el.data m.poller m.user with
  | none => none
  | some (p, u) => some { poller := p, user := u, calls := m.calls ++ [el] }

/-- One round of the `for` loop of `onion_poller_poll` (lines 158-168), for the event whose
descriptor is `efd`. -/
def dispatch_event {σ : Type} (cb : Callbacks σ) (m : Machine σ) (efd : Int) :
    Option (Machine σ) :=
  match lookup efd m.poller.head with
  | none => some m
  | some el => invoke cb m el

/-- The `for` loop of `onion_poller_poll` over one batch: the descriptors
`event[0].data.fd`, ..., `event[nfds-1].data.fd` (no round when `nfds <= 0`). -/
def dispatch_batch {σ : Type} (cb : Callbacks σ) (m : Machine σ) : List Int → Option (Machine σ)
  | [] => some m
  | efd :: rest =>
    match dispatch_event cb m efd with
    | none => none
    | some m1 => dispatch_batch cb m1 rest

/-- How a call of `onion_poller_poll` ends: it returns (with the wait results it did not
consume), it stays blocked in `epoll_wait` for ever, or a callback faults. -/
inductive PollResult (σ : Type) where
  | returned (m : Machine σ) (unconsumed : List (List Int))
  | blocked (m : Machine σ)
  | faulted

/-- The loop `onion_poller_poll`. The list holds the batches that the successive calls of
`epoll_wait` return; when it is used up the next wait blocks for ever (timeout -1). -/
def onion_poller_poll {σ : Type} (cb : Callbacks σ) :
    List (List Int) → Machine σ → PollResult σ
  | [], m =>
    if m.poller.stop ≠ 0 then
      PollResult.returned { m with poller := { m.poller with stop := 0 } } []
    else PollResult.blocked m
  | batch :: rest, m =>
    if m.poller.stop ≠ 0 then
      PollResult.returned { m with poller := { m.poller with stop := 0 } } (batch :: rest)
    else
      match dispatch_batch cb m batch with
      | none => PollResult.faulted
      | some m1 => onion_poller_poll cb rest m1

/-! ### Sample callbacks and states -/

/-- Callbacks that return at once, leaving the poller alone. -/
def cb_idle : Callbacks Unit := fun _ _ p u => some (p, u)

/-- Callbacks in which the function at address 2 calls `onion_poller_stop` and every other
function returns at once. -/
def cb_stopper : Callbacks Unit := fun f _ p u =>
  if f = 2 then some (onion_poller_stop p, u) else some (p, u)

/-- Callbacks in which the function at address 3 calls `onion_poller_remove` on the descriptor
that its context holds, and every other function returns at once. -/
def cb_unregister : Callbacks Unit := fun f d p u =>
  if f = 3 then
    match onion_poller_remove p (Int.ofNat d) with
    | none => none
    | some r => some (r.2, u)
  else some (p, u)

/-- A poller with three Watches, for the descriptors 5, 7 and 9. -/
def sample_poller : onion_poller :=
  { fd := 4, stop := 0, n := 3,
    head := [{ fd := 5, f := 1, data := 100 }, { fd := 7, f := 2, data := 200 },
             { fd := 9, f := 1, data := 300 }] }

/-- The program state around `sample_poller`, before any callback has run. -/
def sample_machine : Machine Unit := { poller := sample_poller, user := (), calls := [] }

/-- A poller whose first Watch, for descriptor 5, has the callback at address 3 with
context 7: that callback unregisters descriptor 7. -/
def unregistering_poller : onion_poller :=
  { fd := 4, stop := 0, n := 3,
    head := [{ fd := 5, f := 3, data := 7 }, { fd := 7, f := 2, data := 200 },
             { fd := 9, f := 1, data := 300 }] }

/-- A poller where descriptor 3 was registered twice. -/
def twice_poller : onion_poller :=
  { fd := 4, stop := 0, n := 2,
    head := [{ fd := 3, f := 1, data := 100 }, { fd := 3, f := 2, data := 200 }] }

/-- The callback of the example scenario, with the log as the rest of the program state: it
appends `token` to the log, calls `onion_poller_remove(poller, fd)` and then
`onion_poller_stop(poller)`. -/
def cb_log_remove_stop (fd : Int) (token : Nat) : Callbacks (List Nat) := fun _ _ p log =>
  match onion_poller_remove p fd with
  | none => none
  | some r => some (onion_poller_stop r.2, log ++ [token])

/-- A poller whose first Watch, for descriptor 5, has the callback at address 3 with
context 5: that callback unregisters the descriptor it is called for. -/
def self_removing_poller : onion_poller :=
  { fd := 4, stop := 0, n := 2,
    head := [{ fd := 5, f := 3, data := 5 }, { fd := 7, f := 2, data := 200 }] }

/-- One call of the interface on the poller, as client code (a callback, for one) makes it;
for `add` the last field is what `epoll_ctl` returns. -/
inductive PollerOp where
  | add (fd : Int) (f : Nat) (data : Nat) (rc : Int)
  | remove (fd : Int)
  | stop
deriving DecidableEq, Repr

/-- The poller after one call of the interface; `none` when the call faults. -/
def apply_op (p : onion_poller) : PollerOp → Option onion_poller
  | PollerOp.add fd f data rc => some (onion_poller_add p fd f data rc).2
  | PollerOp.remove fd =>
    match onion_poller_remove p fd with
    | none => none
    | some r => some r.2
  | PollerOp.stop => some (onion_poller_stop p)

/-- The poller after a sequence of calls of the interface, first call first. -/
def apply_ops (p : onion_poller) : List PollerOp → Option onion_poller
  | [] => some p
  | op :: rest =>
    match apply_op p op with
    | none => none
    | some q => apply_ops q rest

/-! ### The interest list of the epoll instance -/

/-- The kernel side of `epoll_ctl(epfd, EPOLL_CTL_ADD, fd, &ev)` on the interest list of the
epoll instance. Whether the kernel accepts the call depends on the open file behind `fd`,
which is not part of this model: the answer `rc` is an input. When the kernel accepts
(`rc` not negative) the descriptor is on the interest list afterwards; when it refuses the
list is as before. -/
def epoll_ctl_add (interest : List Int) (fd : Int) (rc : Int) : Int × List Int :=
  if rc < 0 then (rc, interest) else (rc, interest ++ [fd])

/-- The kernel side of closing the descriptor `fd` (the last descriptor of its open file):
the kernel drops it from the interest list. -/
def epoll_close (interest : List Int) (fd : Int) : List Int :=
  interest.filter (fun x => decide (x ≠ fd))

/-- The poller together with the interest list of its epoll instance. -/
structure NativeSys where
  poller : onion_poller
  interest : List Int
deriving DecidableEq, Repr

/-- One call of the interface with the kernel side made explicit. `onion_poller_add` calls
`epoll_ctl` with `EPOLL_CTL_ADD` and goes by its answer; `onion_poller_remove` and
`onion_poller_stop` make no call to the kernel, the interest list stays as it is. -/
def sys_step (s : NativeSys) : PollerOp → Option NativeSys
  | PollerOp.add fd f data rc =>
    some { poller := (onion_poller_add s.poller fd f data (epoll_ctl_add s.interest fd rc).1).2,
           interest := (epoll_ctl_add s.interest fd rc).2 }
  | PollerOp.remove fd =>
    match onion_poller_remove s.poller fd with
    | none => none
    | some r => some { poller := r.2, interest := s.interest }
  | PollerOp.stop => some { poller := onion_poller_stop s.poller, interest := s.interest }

/-- What happens to the poller and its epoll instance: a call of the interface, or the
program closing a descriptor, which is no call of the interface. -/
inductive NativeEvent where
  | call (op : PollerOp)
  | close (fd : Int)
deriving DecidableEq, Repr

/-- Whether the event is a call of the interface (and not the closing of a descriptor). -/
def is_call : NativeEvent → Bool
  | NativeEvent.call _ => true
  | NativeEvent.close _ => false

/-- One event on the poller and its epoll instance; closing a descriptor leaves the poller
as it is. -/
def sys_event (s : NativeSys) : NativeEvent → Option NativeSys
  | NativeEvent.call op => sys_step s op
  | NativeEvent.close fd => some { poller := s.poller, interest := epoll_close s.interest fd }

/-- A sequence of events on the poller and its epoll instance, first event first. -/
def sys_run (s : NativeSys) : List NativeEvent → Option NativeSys
  | [] => some s
  | ev :: rest =>
    match sys_event s ev with
    | none => none
    | some s1 => sys_run s1 rest

/-! ## Basic facts -/

theorem link_tail_eq_append (nel : onion_poller_el) (l : List onion_poller_el) :
    link_tail nel l = l ++ [nel] := by
  induction l with
  | nil => rfl
  | cons el rest ih => simp [link_tail, ih]

theorem add_of_native_ok (p : onion_poller) (fd : Int) (f data : Nat) (rc : Int)
    (hrc : 0 ≤ rc) :
    onion_poller_add p fd f data rc
      = (0, { p with head := p.head ++ [{ fd := fd, f := f, data := data }], n := p.n + 1 }) := by
  have h : ¬ rc < 0 := not_lt.mpr hrc
  simp [onion_poller_add, h, link_tail_eq_append]

theorem add_of_native_fail (p : onion_poller) (fd : Int) (f data : Nat) (rc : Int)
    (hrc : rc < 0) : onion_poller_add p fd f data rc = (1, p) := by
  simp [onion_poller_add, hrc]

theorem lookup_some {efd : Int} {el : onion_poller_el} :
    ∀ {l : List onion_poller_el}, lookup efd l = some el → el ∈ l ∧ el.fd = efd := by
  intro l
  induction l with
  | nil => intro h; simp [lookup] at h
  | cons x rest ih =>
    intro h
    unfold lookup at h
    by_cases hx : x.fd = efd
    · simp [hx] at h
      subst h
      exact ⟨List.mem_cons_self _ _, hx⟩
    · simp [hx] at h
      exact ⟨List.mem_cons_of_mem _ (ih h).1, (ih h).2⟩

theorem lookup_append_skip {efd : Int} (pre l : List onion_poller_el)
    (hpre : ∀ x ∈ pre, x.fd ≠ efd) : lookup efd (pre ++ l) = lookup efd l := by
  induction pre with
  | nil => rfl
  | cons x rest ih =>
    have hx : x.fd ≠ efd := hpre x (List.mem_cons_self _ _)
    have hrest : ∀ y ∈ rest, y.fd ≠ efd := fun y hy => hpre y (List.mem_cons_of_mem _ hy)
    simp [lookup, hx, ih hrest]

theorem lookup_first (pre post : List onion_poller_el) (w : onion_poller_el)
    (hpre : ∀ x ∈ pre, x.fd ≠ w.fd) : lookup w.fd (pre ++ w :: post) = some w := by
  rw [lookup_append_skip pre (w :: post) hpre]
  simp [lookup]

theorem lookup_none {efd : Int} :
    ∀ {l : List onion_poller_el}, (∀ x ∈ l, x.fd ≠ efd) → lookup efd l = none := by
  intro l h
  have := lookup_append_skip l [] h
  simpa [lookup] using this

theorem lookup_of_mem {w : onion_poller_el} :
    ∀ {l : List onion_poller_el}, w ∈ l → ∃ el, lookup w.fd l = some el := by
  intro l
  induction l with
  | nil => intro h; simp at h
  | cons x rest ih =>
    intro h
    by_cases hx : x.fd = w.fd
    · exact ⟨x, by simp [lookup, hx]⟩
    · have hne : w ≠ x := by
        intro e
        exact hx (by rw [e])
      have hmem : w ∈ rest := by
        rcases List.mem_cons.mp h with h1 | h1
        · exact absurd h1 hne
        · exact h1
      obtain ⟨el, hel⟩ := ih hmem
      exact ⟨el, by simp [lookup, hx, hel]⟩

theorem dispatch_event_found {σ : Type} (cb : Callbacks σ) (m : Machine σ) (efd : Int)
    (el : onion_poller_el) (h : lookup efd m.poller.head = some el) :
    dispatch_event cb m efd = invoke cb m el := by
  simp [dispatch_event, h]

theorem dispatch_event_unknown {σ : Type} (cb : Callbacks σ) (m : Machine σ) (efd : Int)
    (h : lookup efd m.poller.head = none) : dispatch_event cb m efd = some m := by
  simp [dispatch_event, h]

theorem invoke_of_call {σ : Type} (cb : Callbacks σ) (m : Machine σ) (el : onion_poller_el)
    (p : onion_poller) (u : σ) (h : cb el.f el.data m.poller m.user = some (p, u)) :
    invoke cb m el = some { poller := p, user := u, calls := m.calls ++ [el] } := by
  simp [invoke, h]

theorem dispatch_event_calls {σ : Type} (cb : Callbacks σ) (m m1 : Machine σ) (e : Int)
    (h : dispatch_event cb m e = some m1) :
    m1 = m ∨ ∃ el, lookup e m.poller.head = some el ∧ m1.calls = m.calls ++ [el] := by
  cases hl : lookup e m.poller.head with
  | none =>
    rw [dispatch_event_unknown cb m e hl] at h
    exact Or.inl (Option.some.inj h).symm
  | some el =>
    right
    refine ⟨el, rfl, ?_⟩
    rw [dispatch_event_found cb m e el hl] at h
    cases hc : cb el.f el.data m.poller m.user with
    | none => simp [invoke, hc] at h
    | some r =>
      obtain ⟨q, v⟩ := r
      rw [invoke_of_call cb m el q v hc] at h
      rw [← Option.some.inj h]

theorem dispatch_batch_append {σ : Type} (cb : Callbacks σ) (l1 l2 : List Int) :
    ∀ m : Machine σ, dispatch_batch cb m (l1 ++ l2)
      = (dispatch_batch cb m l1).bind (fun m1 => dispatch_batch cb m1 l2) := by
  induction l1 with
  | nil => intro m; rfl
  | cons e rest ih =>
    intro m
    simp only [List.cons_append, dispatch_batch]
    cases dispatch_event cb m e with
    | none => rfl
    | some m1 => exact ih m1

/-- The calls made while a list of events is dispatched are all for descriptors of the list,
whatever the callbacks do. -/
theorem dispatch_batch_calls {σ : Type} (cb : Callbacks σ) (l : List Int) :
    ∀ m m1 : Machine σ, dispatch_batch cb m l = some m1 →
      ∃ new, m1.calls = m.calls ++ new ∧ ∀ el ∈ new, el.fd ∈ l := by
  induction l with
  | nil =>
    intro m m1 h
    simp only [dispatch_batch, Option.some.injEq] at h
    exact ⟨[], by simp [h], by simp⟩
  | cons e rest ih =>
    intro m m1 h
    simp only [dispatch_batch] at h
    cases hd : dispatch_event cb m e with
    | none => simp [hd] at h
    | some m2 =>
      rw [hd] at h
      obtain ⟨new, hcalls, hfd⟩ := ih m2 m1 h
      rcases dispatch_event_calls cb m m2 e hd with h2 | ⟨el, hl, h2⟩
      · rw [h2] at hcalls
        exact ⟨new, hcalls, fun x hx => List.mem_cons_of_mem _ (hfd x hx)⟩
      · refine ⟨el :: new, by rw [hcalls, h2]; simp, ?_⟩
        intro x hx
        rcases List.mem_cons.mp hx with h3 | h3
        · rw [h3, (lookup_some hl).2]
          exact List.mem_cons_self _ _
        · exact List.mem_cons_of_mem _ (hfd x h3)

theorem unlink_next_first (fd : Int) (pre post : List onion_poller_el) (w : onion_poller_el)
    (hpre : ∀ x ∈ pre, x.fd ≠ fd) (hw : w.fd = fd) :
    unlink_next fd (pre ++ w :: post) = (pre ++ post, true) := by
  induction pre with
  | nil => simp [unlink_next, hw]
  | cons x rest ih =>
    have hx : x.fd ≠ fd := hpre x (List.mem_cons_self _ _)
    have hrest : ∀ y ∈ rest, y.fd ≠ fd := fun y hy => hpre y (List.mem_cons_of_mem _ hy)
    simp [unlink_next, hx, ih hrest]

/-- Removal when a Watch for `fd` is in the table: the first one goes, the rest stays. -/
theorem remove_first (p : onion_poller) (fd : Int) (pre post : List onion_poller_el)
    (w : onion_poller_el) (hsplit : p.head = pre ++ w :: post)
    (hpre : ∀ x ∈ pre, x.fd ≠ fd) (hw : w.fd = fd) :
    onion_poller_remove p fd = some (0, { p with head := pre ++ post, n := p.n - 1 }) := by
  cases pre with
  | nil =>
    simp only [List.nil_append] at hsplit
    simp [onion_poller_remove, hsplit, hw]
  | cons x rest =>
    have hx : x.fd ≠ fd := hpre x (List.mem_cons_self _ _)
    have hrest : ∀ y ∈ rest, y.fd ≠ fd := fun y hy => hpre y (List.mem_cons_of_mem _ hy)
    simp only [List.cons_append] at hsplit
    simp [onion_poller_remove, hsplit, hx, unlink_next_first fd rest post w hrest hw]

theorem dispatch_batch_empty_table {σ : Type} (cb : Callbacks σ) (batch : List Int) :
    ∀ m : Machine σ, m.poller.head = [] → dispatch_batch cb m batch = some m := by
  induction batch with
  | nil => intro m _; rfl
  | cons e rest ih =>
    intro m h
    have hl : lookup e m.poller.head = none := by rw [h]; rfl
    simp [dispatch_batch, dispatch_event_unknown cb m e hl, ih m h]

/-- The batch of the example scenario: the table holds the single Watch `w` for `fd`, whose
callback logs, unregisters `fd` and stops. -/
theorem dispatch_batch_log_remove_stop (fd : Int) (token : Nat) (w : onion_poller_el)
    (hw : w.fd = fd) (batch : List Int) :
    ∀ m : Machine (List Nat), m.poller.head = [w] → fd ∈ batch →
      dispatch_batch (cb_log_remove_stop fd token) m batch
        = some { poller := onion_poller_stop { m.poller with head := [], n := m.poller.n - 1 },
                 user := m.user ++ [token], calls := m.calls ++ [w] } := by
  induction batch with
  | nil => intro m _ h; simp at h
  | cons e rest ih =>
    intro m hm hmem
    by_cases he : e = fd
    · have hl : lookup e m.poller.head = some w := by
        rw [hm, he]
        simp [lookup, hw]
      have hc : cb_log_remove_stop fd token w.f w.data m.poller m.user
          = some (onion_poller_stop { m.poller with head := [], n := m.poller.n - 1 },
                  m.user ++ [token]) := by
        simp [cb_log_remove_stop, onion_poller_remove, hm, hw]
      have hd := dispatch_event_found (cb_log_remove_stop fd token) m e w hl
      rw [invoke_of_call _ m w _ _ hc] at hd
      simp only [dispatch_batch, hd]
      exact dispatch_batch_empty_table _ rest _ rfl
    · have hl : lookup e m.poller.head = none := by
        rw [hm]
        have hne : w.fd ≠ e := by
          rw [hw]
          exact fun h => he h.symm
        simp [lookup, hne]
      have hrest : fd ∈ rest := by
        rcases List.mem_cons.mp hmem with h1 | h1
        · exact absurd h1.symm he
        · exact h1
      simp only [dispatch_batch, dispatch_event_unknown _ m e hl]
      exact ih m hm hrest

theorem poll_returned_stop_clear {σ : Type} (cb : Callbacks σ) (waits : List (List Int)) :
    ∀ (m m1 : Machine σ) (un : List (List Int)),
      onion_poller_poll cb waits m = PollResult.returned m1 un → m1.poller.stop = 0 := by
  induction waits with
  | nil =>
    intro m m1 un h
    unfold onion_poller_poll at h
    split at h
    · cases h; rfl
    · exact absurd h (by simp)
  | cons batch rest ih =>
    intro m m1 un h
    unfold onion_poller_poll at h
    split at h
    · cases h; rfl
    · split at h
      · exact absurd h (by simp)
      · exact ih _ m1 un h

theorem poll_enters_loop {σ : Type} (cb : Callbacks σ) (m : Machine σ)
    (h : m.poller.stop = 0) :
    onion_poller_poll cb [] m = PollResult.blocked m ∧
    ∀ batch rest, onion_poller_poll cb (batch :: rest) m
      = match dispatch_batch cb m batch with
        | none => PollResult.faulted
        | some m2 => onion_poller_poll cb rest m2 := by
  refine ⟨by simp [onion_poller_poll, h], ?_⟩
  intro batch rest
  simp [onion_poller_poll, h]

theorem unlink_next_absent (fd : Int) :
    ∀ l : List onion_poller_el, (∀ x ∈ l, x.fd ≠ fd) → unlink_next fd l = (l, false) := by
  intro l
  induction l with
  | nil => intro _; rfl
  | cons x rest ih =>
    intro h
    have hx : x.fd ≠ fd := h x (List.mem_cons_self _ _)
    have hrest : ∀ y ∈ rest, y.fd ≠ fd := fun y hy => h y (List.mem_cons_of_mem _ hy)
    simp [unlink_next, hx, ih hrest]

theorem remove_absent (p : onion_poller) (fd : Int) (hne : p.head ≠ [])
    (h : ∀ x ∈ p.head, x.fd ≠ fd) : onion_poller_remove p fd = some (0, p) := by
  cases hh : p.head with
  | nil => exact absurd hh hne
  | cons x rest =>
    rw [hh] at h
    have hx : x.fd ≠ fd := h x (List.mem_cons_self _ _)
    have hrest : ∀ y ∈ rest, y.fd ≠ fd := fun y hy => h y (List.mem_cons_of_mem _ hy)
    simp [onion_poller_remove, hh, hx, unlink_next_absent fd rest hrest]

theorem remove_empty (p : onion_poller) (fd : Int) (h : p.head = []) :
    onion_poller_remove p fd = none := by
  simp [onion_poller_remove, h]

theorem first_split (fd : Int) :
    ∀ l : List onion_poller_el, (∃ w ∈ l, w.fd = fd) →
      ∃ pre w post, l = pre ++ w :: post ∧ (∀ x ∈ pre, x.fd ≠ fd) ∧ w.fd = fd := by
  intro l
  induction l with
  | nil => intro ⟨w, hw, _⟩; simp at hw
  | cons x rest ih =>
    intro ⟨w, hw, hfd⟩
    by_cases hx : x.fd = fd
    · exact ⟨[], x, rest, rfl, by simp, hx⟩
    · have hmem : w ∈ rest := by
        rcases List.mem_cons.mp hw with h1 | h1
        · rw [h1] at hfd
          exact absurd hfd hx
        · exact h1
      obtain ⟨pre, w1, post, hsplit, hpre, hw1⟩ := ih ⟨w, hmem, hfd⟩
      refine ⟨x :: pre, w1, post, by simp [hsplit], ?_, hw1⟩
      intro y hy
      rcases List.mem_cons.mp hy with h1 | h1
      · rw [h1]; exact hx
      · exact hpre y h1

/-- The two ways `onion_poller_remove` returns: nothing found and the poller as it was, or the
first Watch for `fd` taken out and the count one lower. -/
theorem remove_cases (p : onion_poller) (fd : Int) (r : Int) (q : onion_poller)
    (h : onion_poller_remove p fd = some (r, q)) :
    r = 0 ∧
    ((q = p ∧ ∀ x ∈ p.head, x.fd ≠ fd) ∨
      ∃ pre w post, p.head = pre ++ w :: post ∧ (∀ x ∈ pre, x.fd ≠ fd) ∧ w.fd = fd ∧
        q = { p with head := pre ++ post, n := p.n - 1 }) := by
  by_cases hex : ∃ w ∈ p.head, w.fd = fd
  · obtain ⟨pre, w, post, hsplit, hpre, hw⟩ := first_split fd p.head hex
    rw [remove_first p fd pre post w hsplit hpre hw] at h
    simp only [Option.some.injEq, Prod.mk.injEq] at h
    exact ⟨h.1.symm, Or.inr ⟨pre, w, post, hsplit, hpre, hw, h.2.symm⟩⟩
  · have hnone : ∀ x ∈ p.head, x.fd ≠ fd := fun x hx hfd => hex ⟨x, hx, hfd⟩
    by_cases hne : p.head = []
    · rw [remove_empty p fd hne] at h
      exact absurd h (by simp)
    · rw [remove_absent p fd hne hnone] at h
      simp only [Option.some.injEq, Prod.mk.injEq] at h
      exact ⟨h.1.symm, Or.inl ⟨h.2.symm, hnone⟩⟩

theorem lookup_remove_other (e2 : Int) (w : onion_poller_el) (hw : w.fd ≠ e2)
    (pre post : List onion_poller_el) :
    lookup e2 (pre ++ w :: post) = lookup e2 (pre ++ post) := by
  induction pre with
  | nil => simp [lookup, hw]
  | cons x rest ih =>
    by_cases hx : x.fd = e2
    · simp [lookup, hx]
    · simp [lookup, hx, ih]

theorem unknown_event_skip_step {σ : Type} (cb : Callbacks σ) (m : Machine σ) (efd : Int)
    (rest : List Int) (hl : lookup efd m.poller.head = none) :
    dispatch_batch cb m (efd :: rest) = dispatch_batch cb m rest := by
  simp [dispatch_batch, dispatch_event_unknown cb m efd hl]

theorem dispatch_batch_fault {σ : Type} (cb : Callbacks σ) (batch : List Int) :
    ∀ m : Machine σ, dispatch_batch cb m batch = none →
      ∃ (p : onion_poller) (u : σ) (el : onion_poller_el), cb el.f el.data p u = none := by
  induction batch with
  | nil => intro m h; simp [dispatch_batch] at h
  | cons e rest ih =>
    intro m h
    simp only [dispatch_batch] at h
    cases hd : dispatch_event cb m e with
    | none =>
      cases hl : lookup e m.poller.head with
      | none =>
        rw [dispatch_event_unknown cb m e hl] at hd
        exact absurd hd (by simp)
      | some el =>
        rw [dispatch_event_found cb m e el hl] at hd
        cases hc : cb el.f el.data m.poller m.user with
        | none => exact ⟨m.poller, m.user, el, hc⟩
        | some r =>
          simp [invoke, hc] at hd
    | some m1 =>
      rw [hd] at h
      exact ih m1 h

theorem remove_head_subset (p : onion_poller) (fd : Int) (r : Int) (q : onion_poller)
    (h : onion_poller_remove p fd = some (r, q)) : ∀ w ∈ q.head, w ∈ p.head := by
  intro w hw
  rcases (remove_cases p fd r q h).2 with ⟨hq, _⟩ | ⟨pre, w1, post, hsplit, _, _, hq⟩
  · rw [hq] at hw
    exact hw
  · rw [hq] at hw
    rw [hsplit]
    rcases List.mem_append.mp hw with h1 | h1
    · exact List.mem_append_left _ h1
    · exact List.mem_append_right _ (List.mem_cons_of_mem _ h1)

theorem add_count (p : onion_poller) (fd : Int) (f data : Nat) (rc : Int)
    (h : p.n = p.head.length) :
    (onion_poller_add p fd f data rc).2.n = (onion_poller_add p fd f data rc).2.head.length := by
  by_cases hrc : rc < 0
  · rw [add_of_native_fail p fd f data rc hrc]
    exact h
  · rw [add_of_native_ok p fd f data rc (not_lt.mp hrc)]
    simp [h]

theorem remove_count (p : onion_poller) (fd : Int) (r : Int) (q : onion_poller)
    (h : p.n = p.head.length) (hr : onion_poller_remove p fd = some (r, q)) :
    q.n = q.head.length := by
  rcases (remove_cases p fd r q hr).2 with ⟨hq, _⟩ | ⟨pre, w1, post, hsplit, _, _, hq⟩
  · rw [hq]
    exact h
  · rw [hq]
    rw [hsplit] at h
    simp only [List.length_append, List.length_cons, Nat.cast_add, Nat.cast_succ] at h ⊢
    omega

theorem apply_ops_count (ops : List PollerOp) :
    ∀ p q : onion_poller, p.n = p.head.length → apply_ops p ops = some q →
      q.n = q.head.length := by
  induction ops with
  | nil =>
    intro p q h hq
    simp only [apply_ops, Option.some.injEq] at hq
    rw [← hq]
    exact h
  | cons op rest ih =>
    intro p q h hq
    simp only [apply_ops] at hq
    cases hop : apply_op p op with
    | none => simp [hop] at hq
    | some p1 =>
      rw [hop] at hq
      refine ih p1 q ?_ hq
      cases op with
      | add fd f data rc =>
        simp only [apply_op, Option.some.injEq] at hop
        rw [← hop]
        exact add_count p fd f data rc h
      | remove fd =>
        simp only [apply_op] at hop
        cases hr : onion_poller_remove p fd with
        | none => simp [hr] at hop
        | some r =>
          simp only [hr, Option.some.injEq] at hop
          rw [← hop]
          exact remove_count p fd r.1 r.2 h hr
      | stop =>
        simp only [apply_op, Option.some.injEq] at hop
        rw [← hop]
        exact h

theorem dispatch_batch_count {σ : Type} (cb : Callbacks σ)
    (hapi : ∀ f d p u q v, cb f d p u = some (q, v) → ∃ ops, apply_ops p ops = some q)
    (batch : List Int) :
    ∀ m m1 : Machine σ, m.poller.n = m.poller.head.length →
      dispatch_batch cb m batch = some m1 → m1.poller.n = m1.poller.head.length := by
  induction batch with
  | nil =>
    intro m m1 h h1
    simp only [dispatch_batch, Option.some.injEq] at h1
    rw [← h1]
    exact h
  | cons e rest ih =>
    intro m m1 h h1
    simp only [dispatch_batch] at h1
    cases hd : dispatch_event cb m e with
    | none => simp [hd] at h1
    | some m2 =>
      rw [hd] at h1
      refine ih m2 m1 ?_ h1
      cases hl : lookup e m.poller.head with
      | none =>
        rw [dispatch_event_unknown cb m e hl] at hd
        rw [← Option.some.inj hd]
        exact h
      | some el =>
        rw [dispatch_event_found cb m e el hl] at hd
        cases hc : cb el.f el.data m.poller m.user with
        | none => simp [invoke, hc] at hd
        | some r =>
          obtain ⟨q, v⟩ := r
          rw [invoke_of_call cb m el q v hc] at hd
          rw [← Option.some.inj hd]
          obtain ⟨ops, hops⟩ := hapi _ _ _ _ _ _ hc
          exact apply_ops_count ops m.poller q h hops

theorem poll_count {σ : Type} (cb : Callbacks σ)
    (hapi : ∀ f d p u q v, cb f d p u = some (q, v) → ∃ ops, apply_ops p ops = some q)
    (waits : List (List Int)) :
    ∀ m : Machine σ, m.poller.n = m.poller.head.length →
      (∀ m1 un, onion_poller_poll cb waits m = PollResult.returned m1 un →
        m1.poller.n = m1.poller.head.length) ∧
      (∀ m1, onion_poller_poll cb waits m = PollResult.blocked m1 →
        m1.poller.n = m1.poller.head.length) := by
  induction waits with
  | nil =>
    intro m h
    constructor
    · intro m1 un h1
      unfold onion_poller_poll at h1
      split at h1
      · cases h1; exact h
      · exact absurd h1 (by simp)
    · intro m1 h1
      unfold onion_poller_poll at h1
      split at h1
      · exact absurd h1 (by simp)
      · cases h1; exact h
  | cons batch rest ih =>
    intro m h
    by_cases hs : m.poller.stop ≠ 0
    · have hp : onion_poller_poll cb (batch :: rest) m
          = PollResult.returned { m with poller := { m.poller with stop := 0 } }
              (batch :: rest) := by
        simp [onion_poller_poll, hs]
      rw [hp]
      constructor
      · intro m1 un h1
        cases h1; exact h
      · intro m1 h1
        exact absurd h1 (by simp)
    · cases hd : dispatch_batch cb m batch with
      | none =>
        constructor
        · intro m1 un h1
          simp [onion_poller_poll, hs, hd] at h1
        · intro m1 h1
          simp [onion_poller_poll, hs, hd] at h1
      | some m2 =>
        have h2 := dispatch_batch_count cb hapi batch m m2 h hd
        have hp : onion_poller_poll cb (batch :: rest) m = onion_poller_poll cb rest m2 := by
          simp [onion_poller_poll, hs, hd]
        rw [hp]
        exact ih m2 h2

theorem sys_step_add_ok (s : NativeSys) (fd : Int) (f data : Nat) (rc : Int) (hrc : 0 ≤ rc) :
    sys_step s (PollerOp.add fd f data rc)
      = some { poller := { s.poller with
                             head := s.poller.head ++ [{ fd := fd, f := f, data := data }],
                             n := s.poller.n + 1 },
               interest := s.interest ++ [fd] } := by
  have h : ¬ rc < 0 := not_lt.mpr hrc
  simp [sys_step, epoll_ctl_add, h, add_of_native_ok s.poller fd f data rc hrc]

theorem sys_step_add_fail (s : NativeSys) (fd : Int) (f data : Nat) (rc : Int) (hrc : rc < 0) :
    sys_step s (PollerOp.add fd f data rc) = some s := by
  simp [sys_step, epoll_ctl_add, hrc, add_of_native_fail s.poller fd f data rc hrc]

theorem sys_step_covers (s s1 : NativeSys) (op : PollerOp)
    (hinv : ∀ w ∈ s.poller.head, w.fd ∈ s.interest) (hstep : sys_step s op = some s1) :
    (∀ w ∈ s1.poller.head, w.fd ∈ s1.interest) ∧ (∀ fd ∈ s.interest, fd ∈ s1.interest) := by
  cases op with
  | add fd f data rc =>
    by_cases hrc : rc < 0
    · rw [sys_step_add_fail s fd f data rc hrc] at hstep
      rw [← Option.some.inj hstep]
      exact ⟨hinv, fun x hx => hx⟩
    · rw [sys_step_add_ok s fd f data rc (not_lt.mp hrc)] at hstep
      rw [← Option.some.inj hstep]
      constructor
      · intro w hw
        rcases List.mem_append.mp hw with h1 | h1
        · exact List.mem_append_left _ (hinv w h1)
        · rw [List.mem_singleton.mp h1]
          exact List.mem_append_right _ (List.mem_singleton.mpr rfl)
      · intro x hx
        exact List.mem_append_left _ hx
  | remove fd =>
    simp only [sys_step] at hstep
    cases hr : onion_poller_remove s.poller fd with
    | none => simp [hr] at hstep
    | some r =>
      simp only [hr, Option.some.injEq] at hstep
      rw [← hstep]
      exact ⟨fun w hw => hinv w (remove_head_subset s.poller fd r.1 r.2 hr w hw),
        fun x hx => hx⟩
  | stop =>
    simp only [sys_step, Option.some.injEq] at hstep
    rw [← hstep]
    exact ⟨hinv, fun x hx => hx⟩

theorem sys_run_covers (evs : List NativeEvent) :
    ∀ s s1 : NativeSys, (∀ w ∈ s.poller.head, w.fd ∈ s.interest) →
      (∀ ev ∈ evs, is_call ev = true) →
      sys_run s evs = some s1 →
      (∀ w ∈ s1.poller.head, w.fd ∈ s1.interest) ∧ (∀ fd ∈ s.interest, fd ∈ s1.interest) := by
  induction evs with
  | nil =>
    intro s s1 hinv _ hrun
    simp only [sys_run, Option.some.injEq] at hrun
    rw [← hrun]
    exact ⟨hinv, fun x hx => hx⟩
  | cons ev rest ih =>
    intro s s1 hinv hcalls hrun
    simp only [sys_run] at hrun
    cases hstep : sys_event s ev with
    | none => simp [hstep] at hrun
    | some s2 =>
      rw [hstep] at hrun
      have hev := hcalls ev (List.mem_cons_self _ _)
      cases ev with
      | close fd => simp [is_call] at hev
      | call op =>
      have h2 := sys_step_covers s s2 op hinv hstep
      have h3 := ih s2 s1 h2.1 (fun e he => hcalls e (List.mem_cons_of_mem _ he)) hrun
      exact ⟨h3.1, fun x hx => h3.2 x (h2.2 x hx)⟩

/-! ## Registration and unregistration -/

/-- C1: on a fresh poller (the result of the constructor: empty table, count 0), a successful
`onion_poller_add(fd, f, data)` followed by `onion_poller_remove(fd)` returns 0 and gives back
the poller as it was before the add: count `n` again 0 and the table again empty. -/
theorem add_then_remove_on_fresh_poller (epfd fd : Int) (f data : Nat) (rc : Int)
    (p : onion_poller) (hnew : onion_poller_new epfd = some p)
    (hadd : (onion_poller_add p fd f data rc).1 = 0) :
    p.n = 0 ∧ p.head = [] ∧
    (onion_poller_add p fd f data rc).2.n = 1 ∧
    onion_poller_remove (onion_poller_add p fd f data rc).2 fd = some (0, p) := by
  have hrc : ¬ rc < 0 := by
    intro h
    rw [add_of_native_fail p fd f data rc h] at hadd
    exact absurd hadd (by simp)
  unfold onion_poller_new at hnew
  split at hnew
  · exact absurd hnew (by simp)
  · cases hnew
    simp [onion_poller_add, hrc, link_tail, onion_poller_remove]

theorem add_then_remove_on_fresh_poller_witness :
    (onion_poller_new 4 = some { fd := 4, stop := 0, n := 0, head := [] } ∧
      (onion_poller_add { fd := 4, stop := 0, n := 0, head := [] } 7 1 100 0).1 = 0) ∧
    onion_poller_remove (onion_poller_add { fd := 4, stop := 0, n := 0, head := [] } 7 1 100 0).2 7
      = some (0, { fd := 4, stop := 0, n := 0, head := [] }) :=
  ⟨⟨by decide, by decide⟩,
    (add_then_remove_on_fresh_poller 4 7 1 100 0 { fd := 4, stop := 0, n := 0, head := [] }
      (by decide) (by decide)).2.2.2⟩

/-- C2 (failing input): on a fresh poller, whose table is empty, `onion_poller_remove(3)` does
not return 0 with the table unchanged: the loop test `el->next` is evaluated with `el` null. -/
theorem remove_on_fresh_poller_faults :
    onion_poller_new 4 = some { fd := 4, stop := 0, n := 0, head := [] } ∧
    onion_poller_remove { fd := 4, stop := 0, n := 0, head := [] } 3 = none := by
  decide

/-- C3 (failing input): with one Watch for descriptor 3 in the table, the first
`onion_poller_remove(3)` returns 0 and empties the table, and the second one, run on the
poller the first call left, faults on the null head instead of returning 0. -/
theorem remove_twice_single_watch_faults :
    onion_poller_remove { fd := 4, stop := 0, n := 1, head := [{ fd := 3, f := 1, data := 100 }] } 3
      = some (0, { fd := 4, stop := 0, n := 0, head := [] }) ∧
    onion_poller_remove { fd := 4, stop := 0, n := 0, head := [] } 3 = none := by
  decide

/-- C4: when the native registration call fails (`epoll_ctl` returns a negative value),
`onion_poller_add` returns 1 and the poller (table, count `n`, stop flag, epoll descriptor)
is exactly as before the call. -/
theorem add_native_failure_leaves_poller (p : onion_poller) (fd : Int) (f data : Nat) (rc : Int)
    (hrc : rc < 0) :
    (onion_poller_add p fd f data rc).1 = 1 ∧
    (onion_poller_add p fd f data rc).2 = p ∧
    (onion_poller_add p fd f data rc).2.head = p.head ∧
    (onion_poller_add p fd f data rc).2.n = p.n ∧
    (onion_poller_add p fd f data rc).2.stop = p.stop := by
  rw [add_of_native_fail p fd f data rc hrc]
  exact ⟨rfl, rfl, rfl, rfl, rfl⟩

theorem add_native_failure_leaves_poller_witness :
    (-1 : Int) < 0 ∧
    onion_poller_add { fd := 4, stop := 0, n := 1, head := [{ fd := 3, f := 1, data := 100 }] }
        9 2 200 (-1)
      = (1, { fd := 4, stop := 0, n := 1, head := [{ fd := 3, f := 1, data := 100 }] }) :=
  ⟨by decide,
    Prod.ext
      (add_native_failure_leaves_poller
        { fd := 4, stop := 0, n := 1, head := [{ fd := 3, f := 1, data := 100 }] }
        9 2 200 (-1) (by decide)).1
      (add_native_failure_leaves_poller
        { fd := 4, stop := 0, n := 1, head := [{ fd := 3, f := 1, data := 100 }] }
        9 2 200 (-1) (by decide)).2.1⟩

/-- C5: whenever the native registration call succeeds (`epoll_ctl` returns a value that is not
negative), `onion_poller_add(fd, f, data)` returns 0, the count `n` grows by exactly one and the
new table is the old table, unchanged and in the same order, followed by the new Watch
`(fd, f, data)`; the stop flag and the epoll descriptor are untouched. Nothing is asked of the
old table, so a Watch with the same descriptor may already be in it. -/
theorem add_appends_watch (p : onion_poller) (fd : Int) (f data : Nat) (rc : Int)
    (hrc : 0 ≤ rc) :
    (onion_poller_add p fd f data rc).1 = 0 ∧
    (onion_poller_add p fd f data rc).2.n = p.n + 1 ∧
    (onion_poller_add p fd f data rc).2.head = p.head ++ [{ fd := fd, f := f, data := data }] ∧
    (onion_poller_add p fd f data rc).2.stop = p.stop ∧
    (onion_poller_add p fd f data rc).2.fd = p.fd := by
  rw [add_of_native_ok p fd f data rc hrc]
  exact ⟨rfl, rfl, rfl, rfl, rfl⟩

theorem add_appends_watch_witness :
    (0 : Int) ≤ 0 ∧
    (onion_poller_add { fd := 4, stop := 0, n := 1, head := [{ fd := 3, f := 1, data := 100 }] }
        3 2 200 0).2.head
      = [{ fd := 3, f := 1, data := 100 }, { fd := 3, f := 2, data := 200 }] :=
  ⟨by decide,
    (add_appends_watch
      { fd := 4, stop := 0, n := 1, head := [{ fd := 3, f := 1, data := 100 }] }
      3 2 200 0 (by decide)).2.2.1⟩

/-! ## Dispatch -/

/-- C6 (counterexample): descriptor 3 was registered with callback 1 and context 100 and then
with callback 2 and context 200. The dispatch step for a ready event on 3 does not call
callback 2 with 200: its one call is callback 1 with 100. When it is the same callback 1 that
was registered under both contexts, the registration with context 200 gets the callback called
with 100, the context of the other Watch. -/
theorem dispatch_passes_context_of_earlier_registration :
    ({ fd := 3, f := 2, data := 200 } : onion_poller_el) ∈ twice_poller.head ∧
    (dispatch_event cb_idle { poller := twice_poller, user := (), calls := [] } 3).map
      (fun m1 => m1.calls) = some [{ fd := 3, f := 1, data := 100 }] ∧
    (dispatch_event cb_idle
        { poller := { fd := 4, stop := 0, n := 2,
                      head := [{ fd := 3, f := 1, data := 100 }, { fd := 3, f := 1, data := 200 }] },
          user := (), calls := [] } 3).map
      (fun m1 => m1.calls) = some [{ fd := 3, f := 1, data := 100 }] := by
  decide

/-- C6 (amended): for every registration table, however many other Watches it holds, let `w`
be the only Watch of the table for its descriptor, or the first one in table order. The
dispatch step for a ready event on that descriptor is the call `w.f(w.data)`: the callback
registered in `w` is called with exactly the context registered in `w`, and this is the one
call made for the event. -/
theorem dispatch_passes_context_of_first_watch {σ : Type} (cb : Callbacks σ) (m : Machine σ)
    (w : onion_poller_el) (hw : w ∈ m.poller.head)
    (hfirst : (∀ x ∈ m.poller.head, x.fd = w.fd → x = w) ∨
      ∃ pre post, m.poller.head = pre ++ w :: post ∧ ∀ x ∈ pre, x.fd ≠ w.fd) :
    lookup w.fd m.poller.head = some w ∧
    dispatch_event cb m w.fd = invoke cb m w ∧
    (∀ p u, cb w.f w.data m.poller m.user = some (p, u) →
      dispatch_event cb m w.fd
        = some { poller := p, user := u, calls := m.calls ++ [w] }) ∧
    (∀ m1, dispatch_event cb m w.fd = some m1 → m1.calls = m.calls ++ [w]) := by
  have hl : lookup w.fd m.poller.head = some w := by
    rcases hfirst with huniq | ⟨pre, post, hsplit, hpre⟩
    · obtain ⟨el, hel⟩ := lookup_of_mem hw
      have hmem := lookup_some hel
      rw [hel, huniq el hmem.1 hmem.2]
    · rw [hsplit]
      exact lookup_first pre post w hpre
  have hd := dispatch_event_found cb m w.fd w hl
  refine ⟨hl, hd, ?_, ?_⟩
  · intro p u hcall
    rw [hd]
    exact invoke_of_call cb m w p u hcall
  · intro m1 h1
    rw [hd] at h1
    cases hc : cb w.f w.data m.poller m.user with
    | none => simp [invoke, hc] at h1
    | some r =>
      obtain ⟨p, u⟩ := r
      rw [invoke_of_call cb m w p u hc] at h1
      rw [← Option.some.inj h1]

theorem dispatch_passes_context_of_first_watch_witness :
    (({ fd := 7, f := 2, data := 200 } : onion_poller_el) ∈ sample_machine.poller.head ∧
      ∀ x ∈ sample_machine.poller.head, x.fd = 7 → x = { fd := 7, f := 2, data := 200 }) ∧
    dispatch_event cb_idle sample_machine 7
      = some { poller := sample_poller, user := (), calls := [{ fd := 7, f := 2, data := 200 }] } :=
  ⟨⟨by decide, by decide⟩,
    (dispatch_passes_context_of_first_watch cb_idle sample_machine
      { fd := 7, f := 2, data := 200 } (by decide) (Or.inl (by decide))).2.2.1
      sample_poller () rfl⟩

/-- C7 (counterexample): the table holds Watches for the descriptors 5, 7 and 9, and the batch
is 5, 7: it contains 7 and not 9. The callback of descriptor 5 runs first and unregisters
descriptor 7, so the event of 7 finds no Watch and is skipped: the only call of the batch is
the one for descriptor 5, and the callback of descriptor 7 is not invoked. -/
theorem batch_skips_watch_unregistered_by_earlier_callback :
    lookup 7 unregistering_poller.head = some { fd := 7, f := 2, data := 200 } ∧
    lookup 9 unregistering_poller.head = some { fd := 9, f := 1, data := 300 } ∧
    (7 : Int) ∈ [(5 : Int), 7] ∧ (9 : Int) ∉ [(5 : Int), 7] ∧
    (dispatch_batch cb_unregister
        { poller := unregistering_poller, user := (), calls := [] } [5, 7]).map
      (fun m1 => (m1.calls, m1.poller.head))
      = some ([{ fd := 5, f := 3, data := 7 }],
              [{ fd := 5, f := 3, data := 7 }, { fd := 9, f := 1, data := 300 }]) := by
  decide

/-- C7 (amended): let the table answer the Watch `a` for descriptor `A` and the Watch `b` for
another descriptor `B`, and let the batch contain `A` and not `B`. Whatever the callbacks do,
every call made while the batch is dispatched, up to any event of it, is for a descriptor of
the batch, and none is for `B`; so is a call that does not return. When `A` is the first event of the batch its dispatch is the
call of `a`. In general, when the event of `A` is reached (the callbacks of the earlier events
have returned) and `a` is still the Watch the table answers for `A`, the dispatch of the event
is the call of `a`, and once that call returns `a` is among the calls of the batch. When the
earlier callbacks have left no Watch for `A`, the event of `A` is skipped. -/
theorem batch_fires_only_ready_watches {σ : Type} (cb : Callbacks σ) (m : Machine σ)
    (batch : List Int) (A B : Int) (a b : onion_poller_el)
    (ha : lookup A m.poller.head = some a) (hb : lookup B m.poller.head = some b)
    (hAB : A ≠ B) (hA : A ∈ batch) (hB : B ∉ batch) :
    a.fd = A ∧ b.fd = B ∧ a ≠ b ∧
    (∃ pre post, batch = pre ++ A :: post) ∧
    (∀ pre suf m1, batch = pre ++ suf → dispatch_batch cb m pre = some m1 →
      ∃ new, m1.calls = m.calls ++ new ∧
        (∀ el ∈ new, el.fd ∈ batch) ∧ (∀ el ∈ new, el.fd ≠ B) ∧ b ∉ new) ∧
    (∀ post, batch = A :: post → dispatch_event cb m A = invoke cb m a) ∧
    (∀ pre post m0, batch = pre ++ A :: post → dispatch_batch cb m pre = some m0 →
      lookup A m0.poller.head = some a →
      dispatch_event cb m0 A = invoke cb m0 a ∧
      ∀ q u, cb a.f a.data m0.poller m0.user = some (q, u) →
        dispatch_batch cb m (pre ++ [A])
          = some { poller := q, user := u, calls := m0.calls ++ [a] } ∧
        ∀ m1, dispatch_batch cb m batch = some m1 →
          ∃ new, m1.calls = m.calls ++ new ∧ a ∈ new) ∧
    (∀ pre post m0, batch = pre ++ A :: post → dispatch_batch cb m pre = some m0 →
      (∀ x ∈ m0.poller.head, x.fd ≠ A) →
      dispatch_batch cb m batch = dispatch_batch cb m0 post) ∧
    (∀ pre e suf m0, batch = pre ++ e :: suf → dispatch_batch cb m pre = some m0 →
      dispatch_event cb m0 e = none →
      ∃ el, lookup e m0.poller.head = some el ∧ el.fd = e ∧ el.fd ≠ B ∧
        cb el.f el.data m0.poller m0.user = none) := by
  have hafd := (lookup_some ha).2
  have hbfd := (lookup_some hb).2
  refine ⟨hafd, hbfd, ?_, List.append_of_mem hA, ?_, ?_, ?_, ?_, ?_⟩
  · intro e
    exact hAB (by rw [← hafd, ← hbfd, e])
  · intro pre suf m1 hsplit hrun
    obtain ⟨new, hcalls, hfd⟩ := dispatch_batch_calls cb pre m m1 hrun
    have hin : ∀ el ∈ new, el.fd ∈ batch := by
      intro el hel
      rw [hsplit]
      exact List.mem_append_left _ (hfd el hel)
    have hnoB : ∀ el ∈ new, el.fd ≠ B := by
      intro el hel e
      exact hB (e ▸ hin el hel)
    exact ⟨new, hcalls, hin, hnoB, fun hmem => hnoB b hmem hbfd⟩
  · intro post _
    exact dispatch_event_found cb m A a ha
  · intro pre post m0 hsplit hpre hl
    have hd := dispatch_event_found cb m0 A a hl
    refine ⟨hd, ?_⟩
    intro q u hc
    have hev : dispatch_event cb m0 A
        = some { poller := q, user := u, calls := m0.calls ++ [a] } := by
      rw [hd]
      exact invoke_of_call cb m0 a q u hc
    refine ⟨by rw [dispatch_batch_append, hpre]; simp [dispatch_batch, hev], ?_⟩
    intro m1 h1
    rw [hsplit, dispatch_batch_append, hpre] at h1
    simp only [Option.bind, dispatch_batch, hev] at h1
    obtain ⟨new0, h0, _⟩ := dispatch_batch_calls cb pre m m0 hpre
    obtain ⟨new2, h2, _⟩ := dispatch_batch_calls cb post _ m1 h1
    refine ⟨new0 ++ a :: new2, ?_, by simp⟩
    rw [h2, h0]
    simp
  · intro pre post m0 hsplit hpre hnone
    rw [hsplit, dispatch_batch_append, hpre]
    exact unknown_event_skip_step cb m0 A post (lookup_none hnone)
  · intro pre e suf m0 hsplit _ hfault
    cases hl : lookup e m0.poller.head with
    | none =>
      rw [dispatch_event_unknown cb m0 e hl] at hfault
      exact absurd hfault (by simp)
    | some el =>
      have hfd := (lookup_some hl).2
      have he : e ∈ batch := by
        rw [hsplit]
        exact List.mem_append_right _ (List.mem_cons_self _ _)
      refine ⟨el, rfl, hfd, ?_, ?_⟩
      · intro hB2
        exact hB (by rw [← hB2, hfd]; exact he)
      · rw [dispatch_event_found cb m0 e el hl] at hfault
        cases hc : cb el.f el.data m0.poller m0.user with
        | none => rfl
        | some r => simp [invoke, hc] at hfault

theorem batch_fires_only_ready_watches_witness :
    (lookup 5 self_removing_poller.head = some { fd := 5, f := 3, data := 5 } ∧
      lookup 7 self_removing_poller.head = some { fd := 7, f := 2, data := 200 } ∧
      (5 : Int) ∈ [(5 : Int)] ∧ (7 : Int) ∉ [(5 : Int)]) ∧
    dispatch_batch cb_unregister
        { poller := self_removing_poller, user := (), calls := [] } [5]
      = some { poller := { fd := 4, stop := 0, n := 1,
                           head := [{ fd := 7, f := 2, data := 200 }] },
               user := (), calls := [{ fd := 5, f := 3, data := 5 }] } :=
  ⟨by decide,
    (((batch_fires_only_ready_watches cb_unregister
      { poller := self_removing_poller, user := (), calls := [] } [5] 5 7
      { fd := 5, f := 3, data := 5 } { fd := 7, f := 2, data := 200 }
      (by decide) (by decide) (by decide) (by decide) (by decide)).2.2.2.2.2.2.1
      [] [] { poller := self_removing_poller, user := (), calls := [] } rfl rfl rfl).2
      { fd := 4, stop := 0, n := 1, head := [{ fd := 7, f := 2, data := 200 }] } () rfl).1⟩

/-- C9 (counterexample): descriptor 3 is registered twice on a fresh poller, with callback 1 and
context 100 and then with callback 2 and context 200. Both Watches are in the table, but the
dispatch of a batch that reports 3 ready makes one call only, the one of the first Watch: the
second callback does not fire. -/
theorem duplicate_registration_second_does_not_fire :
    onion_poller_add (onion_poller_add { fd := 4, stop := 0, n := 0, head := [] } 3 1 100 0).2
        3 2 200 0 = (0, twice_poller) ∧
    (dispatch_batch cb_idle { poller := twice_poller, user := (), calls := [] } [3]).map
      (fun m1 => m1.calls) = some [{ fd := 3, f := 1, data := 100 }] := by
  decide

/-- C9 (amended): on a poller with no Watch for `fd`, two successful registrations of `fd`, with
`f1`, `c1` and then with `f2`, `c2`, leave both Watches at the end of the table, in that order.
A ready event for `fd` then makes exactly one call, `f1(c1)`; `f2(c2)` is not called for it.
Once `onion_poller_remove(fd)` has taken the first of the two Watches out, a ready event for
`fd` makes the call `f2(c2)`. -/
theorem duplicate_registration_first_fires (p : onion_poller) (fd : Int)
    (f1 c1 f2 c2 : Nat) (rc1 rc2 : Int) (h1 : 0 ≤ rc1) (h2 : 0 ≤ rc2)
    (hnone : ∀ x ∈ p.head, x.fd ≠ fd) :
    ∃ p2, onion_poller_add (onion_poller_add p fd f1 c1 rc1).2 fd f2 c2 rc2 = (0, p2) ∧
      p2.head = p.head ++ [{ fd := fd, f := f1, data := c1 }, { fd := fd, f := f2, data := c2 }] ∧
      p2.n = p.n + 2 ∧
      (∀ (σ : Type) (cb : Callbacks σ) (m : Machine σ), m.poller = p2 →
        dispatch_event cb m fd = invoke cb m { fd := fd, f := f1, data := c1 } ∧
        ∀ q u, cb f1 c1 m.poller m.user = some (q, u) →
          dispatch_batch cb m [fd]
            = some { poller := q, user := u,
                     calls := m.calls ++ [{ fd := fd, f := f1, data := c1 }] }) ∧
      ∃ p3, onion_poller_remove p2 fd = some (0, p3) ∧
        p3.head = p.head ++ [{ fd := fd, f := f2, data := c2 }] ∧
        p3.n = p.n + 1 ∧
        ∀ (σ : Type) (cb : Callbacks σ) (m : Machine σ), m.poller = p3 →
          dispatch_event cb m fd = invoke cb m { fd := fd, f := f2, data := c2 } := by
  rw [add_of_native_ok p fd f1 c1 rc1 h1, add_of_native_ok _ fd f2 c2 rc2 h2]
  refine ⟨_, rfl, by simp, by simp; ring, ?_, ?_⟩
  · intro σ cb m hm
    have hl : lookup fd m.poller.head = some { fd := fd, f := f1, data := c1 } := by
      rw [hm]
      simpa using lookup_first p.head [{ fd := fd, f := f2, data := c2 }]
        { fd := fd, f := f1, data := c1 } hnone
    have hd := dispatch_event_found cb m fd _ hl
    refine ⟨hd, ?_⟩
    intro q u hc
    simp only [dispatch_batch, hd]
    rw [invoke_of_call cb m { fd := fd, f := f1, data := c1 } q u hc]
  · refine ⟨_, remove_first _ fd p.head [{ fd := fd, f := f2, data := c2 }]
      { fd := fd, f := f1, data := c1 } (by simp) hnone rfl, rfl, by simp, ?_⟩
    intro σ cb m hm
    have hl : lookup fd m.poller.head = some { fd := fd, f := f2, data := c2 } := by
      rw [hm]
      exact lookup_first p.head [] { fd := fd, f := f2, data := c2 } hnone
    exact dispatch_event_found cb m fd _ hl

theorem duplicate_registration_first_fires_witness :
    ((0 : Int) ≤ 0 ∧ ∀ x ∈ sample_poller.head, x.fd ≠ 3) ∧
    ∃ p2, onion_poller_add (onion_poller_add sample_poller 3 1 100 0).2 3 2 200 0 = (0, p2) ∧
      p2.head = sample_poller.head
        ++ [{ fd := 3, f := 1, data := 100 }, { fd := 3, f := 2, data := 200 }] := by
  refine ⟨by decide, ?_⟩
  obtain ⟨p2, hadd, hhead, _⟩ :=
    duplicate_registration_first_fires sample_poller 3 1 100 2 200 0 0
      (by decide) (by decide) (by decide)
  exact ⟨p2, hadd, hhead⟩

/-- C10 (failing input): descriptor 3 is registered twice. `onion_poller_remove(3)` returns 0
and takes out the first Watch only: the table still holds a Watch whose descriptor is 3, and a
later ready event for 3 calls the callback of that Watch. -/
theorem remove_leaves_second_watch_of_descriptor :
    onion_poller_remove twice_poller 3
      = some (0, { fd := 4, stop := 0, n := 1, head := [{ fd := 3, f := 2, data := 200 }] }) ∧
    lookup 3 [{ fd := 3, f := 2, data := 200 }] = some { fd := 3, f := 2, data := 200 } ∧
    (dispatch_event cb_idle
        { poller := { fd := 4, stop := 0, n := 1, head := [{ fd := 3, f := 2, data := 200 }] },
          user := (), calls := [] } 3).map (fun m1 => m1.calls)
      = some [{ fd := 3, f := 2, data := 200 }] := by
  decide

/-! ## The loop -/

/-- C11: the example scenario, for every descriptor `fd` and every token. On a fresh poller
with the single Watch on `fd`, whose callback appends the token to the log, removes `fd` from
the poller and calls stop, `onion_poller_poll` run with the log empty and a first batch that
reports `fd` ready returns after that batch: the log holds exactly the one token, the count
`n` is zero and the table is empty (the poller is again the fresh one). -/
theorem example_scenario_log_remove_stop (epfd fd : Int) (f data token : Nat) (rc : Int)
    (p : onion_poller) (batch : List Int) (rest : List (List Int))
    (hnew : onion_poller_new epfd = some p)
    (hadd : (onion_poller_add p fd f data rc).1 = 0)
    (hready : fd ∈ batch) :
    onion_poller_poll (cb_log_remove_stop fd token) (batch :: rest)
        { poller := (onion_poller_add p fd f data rc).2, user := [], calls := [] }
      = PollResult.returned
          { poller := p, user := [token], calls := [{ fd := fd, f := f, data := data }] } rest ∧
    p.n = 0 ∧ p.head = [] ∧ p.stop = 0 := by
  have hrc : 0 ≤ rc := by
    by_contra h
    rw [add_of_native_fail p fd f data rc (not_le.mp h)] at hadd
    exact absurd hadd (by simp)
  unfold onion_poller_new at hnew
  split at hnew
  · exact absurd hnew (by simp)
  · cases hnew
    refine ⟨?_, rfl, rfl, rfl⟩
    rw [add_of_native_ok _ fd f data rc hrc]
    have hb := dispatch_batch_log_remove_stop fd token { fd := fd, f := f, data := data } rfl
      batch { poller := { fd := epfd, stop := 0, n := 0 + 1,
                          head := [] ++ [{ fd := fd, f := f, data := data }] },
              user := [], calls := [] } rfl hready
    simp only [onion_poller_poll]
    rw [hb]
    cases rest with
    | nil => simp [onion_poller_poll, onion_poller_stop]
    | cons b bs => simp [onion_poller_poll, onion_poller_stop]

theorem example_scenario_log_remove_stop_witness :
    (onion_poller_new 4 = some { fd := 4, stop := 0, n := 0, head := [] } ∧
      (7 : Int) ∈ [(7 : Int)]) ∧
    onion_poller_poll (cb_log_remove_stop 7 42) [[7], [7]]
        { poller := { fd := 4, stop := 0, n := 1, head := [{ fd := 7, f := 1, data := 100 }] },
          user := [], calls := [] }
      = PollResult.returned
          { poller := { fd := 4, stop := 0, n := 0, head := [] }, user := [42],
            calls := [{ fd := 7, f := 1, data := 100 }] } [[7]] :=
  ⟨⟨by decide, by decide⟩,
    (example_scenario_log_remove_stop 4 7 1 100 42 0 { fd := 4, stop := 0, n := 0, head := [] }
      [7] [[7]] (by decide) (by decide) (by decide)).1⟩

/-- C12: whenever `onion_poller_poll` returns, the stop flag is 0; a subsequent call on the
poller it left therefore enters the loop: with a batch from the wait it dispatches that batch
and goes on, and with no event to come it sits in the wait instead of returning. -/
theorem poll_return_clears_stop {σ : Type} (cb : Callbacks σ) (waits : List (List Int))
    (m m1 : Machine σ) (un : List (List Int))
    (hret : onion_poller_poll cb waits m = PollResult.returned m1 un) :
    m1.poller.stop = 0 ∧
    onion_poller_poll cb [] m1 = PollResult.blocked m1 ∧
    ∀ batch rest, onion_poller_poll cb (batch :: rest) m1
      = match dispatch_batch cb m1 batch with
        | none => PollResult.faulted
        | some m2 => onion_poller_poll cb rest m2 := by
  have h0 := poll_returned_stop_clear cb waits m m1 un hret
  exact ⟨h0, poll_enters_loop cb m1 h0⟩

theorem poll_return_clears_stop_witness :
    onion_poller_poll cb_stopper [[7], [5]] sample_machine
      = PollResult.returned
          { poller := sample_poller, user := (), calls := [{ fd := 7, f := 2, data := 200 }] }
          [[5]] ∧
    sample_poller.stop = 0 :=
  ⟨rfl,
    (poll_return_clears_stop cb_stopper [[7], [5]] sample_machine
      { poller := sample_poller, user := (), calls := [{ fd := 7, f := 2, data := 200 }] }
      [[5]] rfl).1⟩

/-- C13: for every table and every ready event whose descriptor no Watch of the table
carries, the dispatch step makes no call and leaves the whole state (table, count `n`, stop
flag, record of calls) as it is, without fault, and the loop goes on with the next event of
the batch. -/
theorem unknown_event_is_skipped {σ : Type} (cb : Callbacks σ) (m : Machine σ) (efd : Int)
    (rest : List Int) (hnone : ∀ x ∈ m.poller.head, x.fd ≠ efd) :
    lookup efd m.poller.head = none ∧
    dispatch_event cb m efd = some m ∧
    dispatch_batch cb m (efd :: rest) = dispatch_batch cb m rest := by
  have hl : lookup efd m.poller.head = none := lookup_none hnone
  have hd := dispatch_event_unknown cb m efd hl
  exact ⟨hl, hd, by simp [dispatch_batch, hd]⟩

theorem unknown_event_is_skipped_witness :
    (∀ x ∈ sample_machine.poller.head, x.fd ≠ 6) ∧
    dispatch_batch cb_stopper sample_machine [6, 7]
      = dispatch_batch cb_stopper sample_machine [7] :=
  ⟨by decide, (unknown_event_is_skipped cb_stopper sample_machine 6 [7] (by decide)).2.2⟩

/-- C14 (failing input): `onion_poller_free` on a poller with three Watches. The function only
logs the warning "No onion_poller_free yet!": the table still holds the three Watches, the
count is 3 and the epoll descriptor is still the one of the poller. -/
theorem free_releases_nothing :
    onion_poller_free sample_poller = sample_poller ∧
    (onion_poller_free sample_poller).head.length = 3 ∧
    (onion_poller_free sample_poller).n = 3 ∧
    (onion_poller_free sample_poller).fd = 4 := by
  decide

/-- C16: when some Watch carries `fd`, `onion_poller_remove(fd)` returns 0, the count `n` goes
down by exactly one and the table loses exactly one Watch, the first in table order whose
descriptor is `fd`: the Watches before it and after it stay, unchanged and in the same order.
When no Watch carries `fd` the count is not touched: a call that returns gives back 0 and the
poller as it was, which is what happens on every table that is not empty. -/
theorem remove_takes_first_watch (p : onion_poller) (fd : Int) :
    ((∃ w ∈ p.head, w.fd = fd) →
      ∃ pre w post, p.head = pre ++ w :: post ∧ (∀ x ∈ pre, x.fd ≠ fd) ∧ w.fd = fd ∧
        onion_poller_remove p fd
          = some (0, { p with head := pre ++ post, n := p.n - 1 })) ∧
    ((∀ x ∈ p.head, x.fd ≠ fd) →
      (∀ r q, onion_poller_remove p fd = some (r, q) → r = 0 ∧ q = p) ∧
      (p.head ≠ [] → onion_poller_remove p fd = some (0, p))) := by
  constructor
  · intro h
    obtain ⟨pre, w, post, hsplit, hpre, hw⟩ := first_split fd p.head h
    exact ⟨pre, w, post, hsplit, hpre, hw, remove_first p fd pre post w hsplit hpre hw⟩
  · intro h
    constructor
    · intro r q hr
      by_cases hne : p.head = []
      · rw [remove_empty p fd hne] at hr
        exact absurd hr (by simp)
      · rw [remove_absent p fd hne h] at hr
        simp only [Option.some.injEq, Prod.mk.injEq] at hr
        exact ⟨hr.1.symm, hr.2.symm⟩
    · intro hne
      exact remove_absent p fd hne h

theorem remove_takes_first_watch_witness :
    (∃ w ∈ twice_poller.head, w.fd = 3) ∧
    ∃ pre w post, twice_poller.head = pre ++ w :: post ∧ (∀ x ∈ pre, x.fd ≠ 3) ∧ w.fd = 3 ∧
      onion_poller_remove twice_poller 3
        = some (0, { twice_poller with head := pre ++ post, n := twice_poller.n - 1 }) :=
  ⟨by decide, (remove_takes_first_watch twice_poller 3).1 (by decide)⟩

/-- C19: for each ready event the dispatch step makes at most one call, and when it makes one
it is the call of the Watch that the lookup finds: the first Watch in table order whose
descriptor is the one of the event. Watches further down the table with the same descriptor
are not called for the event. A registration never gets ahead of an earlier one:
`onion_poller_add` leaves the Watch found for a descriptor the same. -/
theorem dispatch_calls_first_watch_only {σ : Type} (cb : Callbacks σ) (m : Machine σ)
    (efd : Int) :
    (∀ m1, dispatch_event cb m efd = some m1 →
      m1 = m ∨ ∃ el, lookup efd m.poller.head = some el ∧ m1.calls = m.calls ++ [el]) ∧
    (∀ pre w post, m.poller.head = pre ++ w :: post → (∀ x ∈ pre, x.fd ≠ efd) → w.fd = efd →
      dispatch_event cb m efd = invoke cb m w ∧
      ∀ q u, cb w.f w.data m.poller m.user = some (q, u) →
        dispatch_event cb m efd = some { poller := q, user := u, calls := m.calls ++ [w] }) ∧
    (∀ (p : onion_poller) (fd : Int) (f data : Nat) (rc : Int) (el : onion_poller_el),
      lookup efd p.head = some el →
      lookup efd (onion_poller_add p fd f data rc).2.head = some el) := by
  refine ⟨?_, ?_, ?_⟩
  · intro m1 h
    cases hl : lookup efd m.poller.head with
    | none =>
      rw [dispatch_event_unknown cb m efd hl] at h
      exact Or.inl (Option.some.inj h).symm
    | some el =>
      right
      refine ⟨el, rfl, ?_⟩
      rw [dispatch_event_found cb m efd el hl] at h
      unfold invoke at h
      split at h
      · exact absurd h (by simp)
      · cases h; rfl
  · intro pre w post hsplit hpre hw
    have hl : lookup efd m.poller.head = some w := by
      rw [hsplit, ← hw]
      exact lookup_first pre post w (by rw [hw]; exact hpre)
    have hd := dispatch_event_found cb m efd w hl
    refine ⟨hd, ?_⟩
    intro q u hc
    rw [hd]
    exact invoke_of_call cb m w q u hc
  · intro p fd f data rc el hl
    by_cases hrc : rc < 0
    · rw [add_of_native_fail p fd f data rc hrc]
      exact hl
    · rw [add_of_native_ok p fd f data rc (not_lt.mp hrc)]
      obtain ⟨pre, w, post, hsplit, hpre, hw⟩ :=
        first_split efd p.head ⟨el, (lookup_some hl).1, (lookup_some hl).2⟩
      have h1 : lookup efd p.head = some w := by
        rw [hsplit, ← hw]
        exact lookup_first pre post w (by rw [hw]; exact hpre)
      rw [hl] at h1
      show lookup efd (p.head ++ [{ fd := fd, f := f, data := data }]) = some el
      rw [hsplit, List.append_assoc, List.cons_append, h1, ← hw]
      exact lookup_first pre _ w (by rw [hw]; exact hpre)

/-- C20: when the stop flag is already set as `onion_poller_poll` is entered, the call returns
at once: no wait result is consumed, no callback is called, the table, the count and the rest
of the state are as before, and the flag is cleared. The request is thereby used up: the
next call enters the loop. -/
theorem poll_with_stop_set_returns_at_once {σ : Type} (cb : Callbacks σ)
    (waits : List (List Int)) (m : Machine σ) (hstop : m.poller.stop ≠ 0) :
    onion_poller_poll cb waits m
      = PollResult.returned { m with poller := { m.poller with stop := 0 } } waits ∧
    onion_poller_poll cb [] { m with poller := { m.poller with stop := 0 } }
      = PollResult.blocked { m with poller := { m.poller with stop := 0 } } ∧
    ∀ batch rest,
      onion_poller_poll cb (batch :: rest) { m with poller := { m.poller with stop := 0 } }
        = match dispatch_batch cb { m with poller := { m.poller with stop := 0 } } batch with
          | none => PollResult.faulted
          | some m2 => onion_poller_poll cb rest m2 := by
  refine ⟨?_, poll_enters_loop cb _ rfl⟩
  cases waits with
  | nil => simp [onion_poller_poll, hstop]
  | cons b bs => simp [onion_poller_poll, hstop]

theorem poll_with_stop_set_returns_at_once_witness :
    (onion_poller_stop sample_poller).stop ≠ 0 ∧
    onion_poller_poll cb_stopper [[5, 7]]
        { poller := onion_poller_stop sample_poller, user := (), calls := [] }
      = PollResult.returned sample_machine [[5, 7]] :=
  ⟨by decide,
    (poll_with_stop_set_returns_at_once cb_stopper [[5, 7]]
      { poller := onion_poller_stop sample_poller, user := (), calls := [] } (by decide)).1⟩

/-- C17: when the callback called for an event changes the table (it may register
descriptors, or unregister some, its own included), the events that follow in the batch are
each looked up in the table as that callback left it. An event whose Watch the callback took
out is skipped and the dispatch goes on; an event whose Watch is in the table is dispatched to
it; taking out the Watch of the running callback leaves the lookup of every other descriptor
as it was; when the callback took out the last Watch all the remaining events are skipped
without fault. The dispatch of a batch faults only when a callback does. -/
theorem callback_changes_table_during_batch {σ : Type} (cb : Callbacks σ) (m : Machine σ)
    (e : Int) (rest : List Int) (el : onion_poller_el) (q : onion_poller) (u : σ)
    (hel : lookup e m.poller.head = some el)
    (hcall : cb el.f el.data m.poller m.user = some (q, u)) :
    dispatch_batch cb m (e :: rest)
      = dispatch_batch cb { poller := q, user := u, calls := m.calls ++ [el] } rest ∧
    (∀ e2 rest2, rest = e2 :: rest2 → (∀ x ∈ q.head, x.fd ≠ e2) →
      dispatch_batch cb m (e :: rest)
        = dispatch_batch cb { poller := q, user := u, calls := m.calls ++ [el] } rest2) ∧
    (∀ e2 rest2 el2, rest = e2 :: rest2 → lookup e2 q.head = some el2 →
      dispatch_batch cb m (e :: rest)
        = (invoke cb { poller := q, user := u, calls := m.calls ++ [el] } el2).bind
            (fun m2 => dispatch_batch cb m2 rest2)) ∧
    (∀ pre post, m.poller.head = pre ++ el :: post → q.head = pre ++ post →
      ∀ e2, e2 ≠ e → lookup e2 q.head = lookup e2 m.poller.head) ∧
    (q.head = [] →
      dispatch_batch cb m (e :: rest)
        = some { poller := q, user := u, calls := m.calls ++ [el] }) ∧
    (∀ (m0 : Machine σ) (b : List Int), dispatch_batch cb m0 b = none →
      ∃ (p0 : onion_poller) (u0 : σ) (el0 : onion_poller_el),
        cb el0.f el0.data p0 u0 = none) := by
  have hd : dispatch_event cb m e
      = some { poller := q, user := u, calls := m.calls ++ [el] } := by
    rw [dispatch_event_found cb m e el hel]
    exact invoke_of_call cb m el q u hcall
  have h1 : dispatch_batch cb m (e :: rest)
      = dispatch_batch cb { poller := q, user := u, calls := m.calls ++ [el] } rest := by
    simp only [dispatch_batch, hd]
  refine ⟨h1, ?_, ?_, ?_, ?_, ?_⟩
  · intro e2 rest2 hrest hnone
    rw [h1, hrest]
    exact (unknown_event_skip_step cb _ e2 rest2 (lookup_none hnone))
  · intro e2 rest2 el2 hrest hl
    rw [h1, hrest]
    simp only [dispatch_batch]
    rw [dispatch_event_found cb _ e2 el2 hl]
    cases invoke cb { poller := q, user := u, calls := m.calls ++ [el] } el2 <;> rfl
  · intro pre post hsplit hq e2 he2
    have hfd : el.fd ≠ e2 := by
      rw [(lookup_some hel).2]
      exact fun h => he2 h.symm
    rw [hsplit, hq]
    exact (lookup_remove_other e2 el hfd pre post).symm
  · intro hq
    rw [h1]
    exact dispatch_batch_empty_table cb rest _ hq
  · intro m0 b hb
    exact dispatch_batch_fault cb b m0 hb

theorem callback_changes_table_during_batch_witness :
    lookup 5 self_removing_poller.head = some { fd := 5, f := 3, data := 5 } ∧
    dispatch_batch cb_unregister
        { poller := self_removing_poller, user := (), calls := [] } [5, 7]
      = some { poller := { fd := 4, stop := 0, n := 1, head := [{ fd := 7, f := 2, data := 200 }] },
               user := (),
               calls := [{ fd := 5, f := 3, data := 5 }, { fd := 7, f := 2, data := 200 }] } :=
  ⟨by decide,
    ((callback_changes_table_during_batch cb_unregister
      { poller := self_removing_poller, user := (), calls := [] } 5 [7]
      { fd := 5, f := 3, data := 5 }
      { fd := 4, stop := 0, n := 1, head := [{ fd := 7, f := 2, data := 200 }] } ()
      rfl rfl).2.2.1 7 [] { fd := 7, f := 2, data := 200 } rfl rfl).trans rfl⟩

/-! ## The count and the native interest list -/

/-- C15 (counterexample): on a fresh poller with nothing on the interest list, descriptor 3 is
registered and then removed. The table is empty again, and descriptor 3 is still on the
interest list of the epoll instance: the removal from the table had no native counterpart. -/
theorem removed_descriptor_stays_on_interest_list :
    sys_run { poller := { fd := 4, stop := 0, n := 0, head := [] }, interest := [] }
        [NativeEvent.call (PollerOp.add 3 1 100 0), NativeEvent.call (PollerOp.remove 3)]
      = some { poller := { fd := 4, stop := 0, n := 0, head := [] }, interest := [3] } ∧
    (3 : Int) ∈ [(3 : Int)] ∧
    ∀ w ∈ ([] : List onion_poller_el), w.fd ≠ 3 := by
  decide

/-- C15 (amended): with the interest list of the epoll instance as explicit state.
`onion_poller_add` goes by the answer of the kernel: when the kernel accepts, the descriptor is
on the interest list and its Watch is appended to the table; when it refuses, table and
interest list are as before. `onion_poller_remove` leaves the interest list as it is. So, from
a state where every descriptor of the table is on the interest list (a fresh poller is one),
after a sequence of calls of the interface during which no descriptor is closed and which runs
to its end, every descriptor that has a Watch in the table is on the interest list and the
interest list has lost nothing. The only call that does not return is `onion_poller_remove` on
an empty table. Closing a registered descriptor takes it off the interest list and leaves its
Watch in the table. -/
theorem interest_list_covers_table (s s1 : NativeSys) (evs : List NativeEvent)
    (hinv : ∀ w ∈ s.poller.head, w.fd ∈ s.interest)
    (hcalls : ∀ ev ∈ evs, is_call ev = true)
    (hrun : sys_run s evs = some s1) :
    (∀ w ∈ s1.poller.head, w.fd ∈ s1.interest) ∧
    (∀ fd ∈ s.interest, fd ∈ s1.interest) ∧
    (∀ (s2 : NativeSys) (fd : Int) (f data : Nat) (rc : Int), 0 ≤ rc →
      sys_step s2 (PollerOp.add fd f data rc)
        = some { poller := { s2.poller with
                               head := s2.poller.head ++ [{ fd := fd, f := f, data := data }],
                               n := s2.poller.n + 1 },
                 interest := s2.interest ++ [fd] }) ∧
    (∀ (s2 : NativeSys) (fd : Int) (f data : Nat) (rc : Int), rc < 0 →
      sys_step s2 (PollerOp.add fd f data rc) = some s2) ∧
    (∀ (s2 s3 : NativeSys) (fd : Int),
      sys_step s2 (PollerOp.remove fd) = some s3 → s3.interest = s2.interest) ∧
    (∀ (s2 : NativeSys) (op : PollerOp), sys_step s2 op = none →
      ∃ fd, op = PollerOp.remove fd ∧ s2.poller.head = []) ∧
    sys_run { poller := { fd := 4, stop := 0, n := 0, head := [] }, interest := [] }
        [NativeEvent.call (PollerOp.add 3 1 100 0), NativeEvent.close 3]
      = some { poller := { fd := 4, stop := 0, n := 1,
                           head := [{ fd := 3, f := 1, data := 100 }] },
               interest := [] } := by
  have h := sys_run_covers evs s s1 hinv hcalls hrun
  refine ⟨h.1, h.2, ?_, ?_, ?_, ?_, by decide⟩
  · intro s2 fd f data rc hrc
    exact sys_step_add_ok s2 fd f data rc hrc
  · intro s2 fd f data rc hrc
    exact sys_step_add_fail s2 fd f data rc hrc
  · intro s2 s3 fd hstep
    simp only [sys_step] at hstep
    cases hr : onion_poller_remove s2.poller fd with
    | none => simp [hr] at hstep
    | some r =>
      simp only [hr, Option.some.injEq] at hstep
      rw [← hstep]
  · intro s2 op hstep
    cases op with
    | add fd f data rc => simp [sys_step] at hstep
    | remove fd =>
      refine ⟨fd, rfl, ?_⟩
      by_contra hne
      simp only [sys_step] at hstep
      have hsome : ∃ r, onion_poller_remove s2.poller fd = some r := by
        by_cases hex : ∃ w ∈ s2.poller.head, w.fd = fd
        · obtain ⟨pre, w, post, hsplit, hpre, hw⟩ := first_split fd s2.poller.head hex
          exact ⟨_, remove_first s2.poller fd pre post w hsplit hpre hw⟩
        · exact ⟨_, remove_absent s2.poller fd hne
            (fun y hy hfd => hex ⟨y, hy, hfd⟩)⟩
      obtain ⟨r, hr⟩ := hsome
      simp [hr] at hstep
    | stop => simp [sys_step] at hstep

theorem interest_list_covers_table_witness :
    ((∀ w ∈ ([] : List onion_poller_el), w.fd ∈ ([] : List Int)) ∧
      sys_run { poller := { fd := 4, stop := 0, n := 0, head := [] }, interest := [] }
          [NativeEvent.call (PollerOp.add 3 1 100 0), NativeEvent.call (PollerOp.add 5 2 200 0),
           NativeEvent.call (PollerOp.remove 3)]
        = some { poller := { fd := 4, stop := 0, n := 1,
                             head := [{ fd := 5, f := 2, data := 200 }] },
                 interest := [3, 5] }) ∧
    ∀ w ∈ [({ fd := 5, f := 2, data := 200 } : onion_poller_el)], w.fd ∈ [(3 : Int), 5] :=
  ⟨⟨by decide, by decide⟩,
    (interest_list_covers_table
      { poller := { fd := 4, stop := 0, n := 0, head := [] }, interest := [] }
      { poller := { fd := 4, stop := 0, n := 1, head := [{ fd := 5, f := 2, data := 200 }] },
        interest := [3, 5] }
      [NativeEvent.call (PollerOp.add 3 1 100 0), NativeEvent.call (PollerOp.add 5 2 200 0),
       NativeEvent.call (PollerOp.remove 3)]
      (by decide) (by decide) (by decide)).1⟩

/-- C18: the count `n` equals the number of Watches of the table. It is so on the poller the
constructor returns, and when it is so before a call it is so after it: after
`onion_poller_add`, whatever `epoll_ctl` returned; after every `onion_poller_remove` that
returns, which on a table that is not empty it always does, the descriptor found or not; after
`onion_poller_stop`; and at the end of `onion_poller_poll`, when it returns and when it stays
in the wait, provided each callback changes the poller by calls of these operations only. -/
theorem count_equals_table_length :
    (∀ (epfd : Int) (p : onion_poller), onion_poller_new epfd = some p →
      p.n = p.head.length) ∧
    (∀ (p : onion_poller) (fd : Int) (f data : Nat) (rc : Int), p.n = p.head.length →
      (onion_poller_add p fd f data rc).2.n
        = (onion_poller_add p fd f data rc).2.head.length) ∧
    (∀ (p : onion_poller) (fd : Int), p.n = p.head.length →
      (∀ r q, onion_poller_remove p fd = some (r, q) → q.n = q.head.length) ∧
      (p.head ≠ [] → ∃ q, onion_poller_remove p fd = some (0, q) ∧ q.n = q.head.length)) ∧
    (∀ p : onion_poller, p.n = p.head.length →
      (onion_poller_stop p).n = (onion_poller_stop p).head.length) ∧
    (∀ (σ : Type) (cb : Callbacks σ),
      (∀ f d p u q v, cb f d p u = some (q, v) → ∃ ops, apply_ops p ops = some q) →
      ∀ (waits : List (List Int)) (m : Machine σ), m.poller.n = m.poller.head.length →
        (∀ m1 un, onion_poller_poll cb waits m = PollResult.returned m1 un →
          m1.poller.n = m1.poller.head.length) ∧
        (∀ m1, onion_poller_poll cb waits m = PollResult.blocked m1 →
          m1.poller.n = m1.poller.head.length)) := by
  refine ⟨?_, ?_, ?_, ?_, ?_⟩
  · intro epfd p hnew
    unfold onion_poller_new at hnew
    split at hnew
    · exact absurd hnew (by simp)
    · cases hnew; rfl
  · intro p fd f data rc h
    exact add_count p fd f data rc h
  · intro p fd h
    constructor
    · intro r q hr
      exact remove_count p fd r q h hr
    · intro hne
      have hsome : ∃ q, onion_poller_remove p fd = some (0, q) := by
        by_cases hex : ∃ w ∈ p.head, w.fd = fd
        · obtain ⟨pre, w, post, hsplit, hpre, hw⟩ := first_split fd p.head hex
          exact ⟨_, remove_first p fd pre post w hsplit hpre hw⟩
        · exact ⟨_, remove_absent p fd hne (fun y hy hfd => hex ⟨y, hy, hfd⟩)⟩
      obtain ⟨q, hq⟩ := hsome
      exact ⟨q, hq, remove_count p fd 0 q h hq⟩
  · intro p h
    exact h
  · intro σ cb hapi waits m h
    exact poll_count cb hapi waits m h

theorem cb_log_remove_stop_by_interface (fd : Int) (token : Nat) :
    ∀ f d p u q v, cb_log_remove_stop fd token f d p u = some (q, v) →
      ∃ ops, apply_ops p ops = some q := by
  intro f d p u q v h
  refine ⟨[PollerOp.remove fd, PollerOp.stop], ?_⟩
  unfold cb_log_remove_stop at h
  cases hr : onion_poller_remove p fd with
  | none => simp [hr] at h
  | some r =>
    simp only [hr, Option.some.injEq, Prod.mk.injEq] at h
    simp [apply_ops, apply_op, hr, h.1]

theorem count_equals_table_length_witness :
    onion_poller_poll (cb_log_remove_stop 7 42) [[7]]
        { poller := { fd := 4, stop := 0, n := 1, head := [{ fd := 7, f := 1, data := 100 }] },
          user := [], calls := [] }
      = PollResult.returned
          { poller := { fd := 4, stop := 0, n := 0, head := [] }, user := [42],
            calls := [{ fd := 7, f := 1, data := 100 }] } [] ∧
    ({ fd := 4, stop := 0, n := 0, head := [] } : onion_poller).n
      = (({ fd := 4, stop := 0, n := 0, head := [] } : onion_poller).head.length : Int) :=
  ⟨rfl,
    (count_equals_table_length.2.2.2.2 (List Nat) (cb_log_remove_stop 7 42)
      (cb_log_remove_stop_by_interface 7 42) [[7]]
      { poller := { fd := 4, stop := 0, n := 1, head := [{ fd := 7, f := 1, data := 100 }] },
        user := [], calls := [] } (by decide)).1
      { poller := { fd := 4, stop := 0, n := 0, head := [] }, user := [42],
        calls := [{ fd := 7, f := 1, data := 100 }] } [] rfl⟩

end Onion
